import Mathlib

/-!
Verification of the Monte Carlo project-simulation engine
(`sampleTriangular`, `topologicalSort`, `runSimulation`) against its
natural-language specification.  The engine is embedded shallowly:
JS numbers become `ℚ` (with `Math.sqrt` abstracted as an explicit
function argument and `Math.random()` as an explicit stream of draws),
JS records keyed by task id become association lists written at the
front (so lookup finds the latest write, matching record overwrite),
and a thrown `Error` becomes `Except.error` carrying the message.
-/

namespace MC

/-- Model of the repository's `Task` interface.  The optional
`resourceType` is modelled as `""` when absent and `resourceCount` as
`0` when absent: these are exactly the JS-falsy values that make the
guards `if (t.resourceType)` and `if (t.resourceType && t.resourceCount)`
fail. -/
structure Task where
  id : String
  name : String
  optimistic : ℚ
  mostLikely : ℚ
  pessimistic : ℚ
  dependencies : List String
  resourceType : String := ""
  resourceCount : ℚ := 0
deriving DecidableEq

/-- Model of the `ProjectData` interface. -/
structure Project where
  projectName : String
  description : String
  tasks : List Task
deriving DecidableEq

/-- The identifiers of a task collection, in order. -/
def taskIds (tasks : List Task) : List String := tasks.map Task.id

/-- Direct dependency relation of a task collection: `depRel tasks a b`
holds when some task with id `a` lists `b` among its dependencies. -/
def depRel (tasks : List Task) (a b : String) : Prop :=
  ∃ t ∈ tasks, t.id = a ∧ b ∈ t.dependencies

/-- The dependency relation has no (nonempty) cycle. -/
def Acyclic (tasks : List Task) : Prop :=
  ∀ a, ¬ Relation.TransGen (depRel tasks) a a

/-- Every dependency identifier names an existing task. -/
def AllDepsExist (tasks : List Task) : Prop :=
  ∀ t ∈ tasks, ∀ d ∈ t.dependencies, d ∈ taskIds tasks

/-- The depth-first visit of `topologicalSort`, with the recursion of
`visit` over a whole list of ids (the dependency list, and at top
level the list of all task ids, matching `tasks.forEach`).  `temp` is
the in-progress set (the current path); the accumulator is
`(visited, result)`.  Matching the source, the `temp` cycle check
precedes the `visited` check, a missing id is silently skipped, and a
found task is emitted after its dependencies. -/
def visitMany (tasks : List Task) :
    List String → List String → List String × List Task →
    Except String (List String × List Task)
  | _, [], acc => .ok acc
  | temp, id :: rest, acc =>
    if hmem : id ∈ temp then .error "Circular dependency detected"
    else if id ∈ acc.1 then visitMany tasks temp rest acc
    else
      match hfind : tasks.find? (fun t => t.id == id) with
      | some task =>
        match visitMany tasks (id :: temp) task.dependencies acc with
        | .error e => .error e
        | .ok acc' => visitMany tasks temp rest (id :: acc'.1, acc'.2 ++ [task])
      | none => visitMany tasks temp rest acc
termination_by temp ids _ =>
  (((tasks.map Task.id).toFinset \ temp.toFinset).card, ids.length)
decreasing_by
  · exact Prod.Lex.right _ (Nat.lt_succ_self _)
  · apply Prod.Lex.left
    have hid : task.id = id := by
      have := List.find?_some hfind
      simpa using this
    have htm : id ∈ (tasks.map Task.id).toFinset := by
      simp only [List.mem_toFinset, List.mem_map]
      exact ⟨task, List.mem_of_find?_eq_some hfind, hid⟩
    have hsub : (tasks.map Task.id).toFinset \ (id :: temp).toFinset
        = ((tasks.map Task.id).toFinset \ temp.toFinset).erase id := by
      simp [List.toFinset_cons, Finset.sdiff_insert]
    rw [hsub]
    exact Finset.card_erase_lt_of_mem (Finset.mem_sdiff.mpr ⟨htm, by simpa using hmem⟩)
  · exact Prod.Lex.right _ (Nat.lt_succ_self _)
  · exact Prod.Lex.right _ (Nat.lt_succ_self _)

/-- Model of `topologicalSort`: drive the depth-first visit over the
task ids in input order and return the emitted order, or propagate the
thrown error. -/
def topologicalSort (tasks : List Task) : Except String (List Task) :=
  (visitMany tasks [] (tasks.map Task.id) ([], [])).map (·.2)

/-- Model of `sampleTriangular` with `Math.sqrt` abstracted as `sqrt`
and the `Math.random()` draw `u` passed explicitly.  The JS float
semantics of `f = (mode - min) / (max - min)` when the denominator is
zero (`f` is `NaN` for `mode = min`, `+∞` for `mode > min`, `-∞` for
`mode < min`; `u < NaN` and `u < -∞` are false, `u < +∞` is true for
the finite `u`) are reflected in the branch condition. -/
def sampleTriangular (sqrt : ℚ → ℚ) (tMin mode tMax u : ℚ) : ℚ :=
  let denom := tMax - tMin
  let takeLow : Bool :=
    if denom = 0 then decide (0 < mode - tMin)
    else decide (u < (mode - tMin) / denom)
  if takeLow then tMin + sqrt (u * denom * (mode - tMin))
  else tMax - sqrt ((1 - u) * denom * (tMax - mode))

/-- Whether evaluating `f = (mode - min) / (max - min)` in
`sampleTriangular` divides by zero.  The division is executed
unconditionally, before any branch, so this holds exactly when the
denominator `tMax - tMin` is zero. -/
def sampleTriangularDivZero (tMin mode tMax : ℚ) : Bool :=
  decide (tMax - tMin = 0)

/-- JS record lookup with the code's `|| 0` default. -/
def lookupD (m : List (String × ℚ)) (k : String) : ℚ := (m.lookup k).getD 0

/-- Value of `Math.max(...xs)` for a nonempty spread; `d` is returned
for `[]` (in the code the spread is only taken over nonempty lists). -/
def maxOfList (d : ℚ) : List ℚ → ℚ
  | [] => d
  | x :: xs => xs.foldl max x

/-- The forward pass of `runSimulation` (step 2), processing `order`
in topological order.  State: start-time map, finish-time map, running
project duration.  A dependency's `taskFinishTimes[depId] || 0` is
`lookupD fm`. -/
def forwardPass (durs : List (String × ℚ)) :
    List Task → List (String × ℚ) → List (String × ℚ) → ℚ →
    List (String × ℚ) × List (String × ℚ) × ℚ
  | [], sm, fm, total => (sm, fm, total)
  | t :: rest, sm, fm, total =>
    let st := if t.dependencies.isEmpty then 0
      else maxOfList 0 (t.dependencies.map (lookupD fm))
    let fin := st + lookupD durs t.id
    forwardPass durs rest ((t.id, st) :: sm) ((t.id, fin) :: fm)
      (if total < fin then fin else total)

/-- A resource allocation or release event of the sweep (step 3). -/
structure Event where
  time : ℚ
  rtype : String
  change : ℚ
deriving DecidableEq

/-- Event generation of step 3: a task with a truthy resource type and
count contributes an acquisition at its start and a release at its
finish, tasks iterated in input order. -/
def eventsOf (tasks : List Task) (sm fm : List (String × ℚ)) : List Event :=
  tasks.foldr
    (fun t es =>
      (if t.resourceType ≠ "" ∧ t.resourceCount ≠ 0 then
        [⟨lookupD sm t.id, t.resourceType, t.resourceCount⟩,
         ⟨lookupD fm t.id, t.resourceType, -t.resourceCount⟩]
      else []) ++ es) []

/-- Insert an event into a time-sorted list, before the first strictly
later event, so that equal-time events keep their original relative
order: JS `Array.prototype.sort` is stable. -/
def insertEvent (e : Event) : List Event → List Event
  | [] => [e]
  | x :: xs => if e.time ≤ x.time then e :: x :: xs else x :: insertEvent e xs

/-- Stable ascending sort of the event list by time, modelling
`events.sort((a, b) => a.time - b.time)`. -/
def sortEvents : List Event → List Event
  | [] => []
  | e :: es => insertEvent e (sortEvents es)

/-- The event sweep of step 3: each event individually updates the
running usage for its resource type and immediately compares against
the recorded peak (`currentUsage`, `peakResources`). -/
def sweepPeaks (events : List Event) : List (String × ℚ) :=
  (events.foldl
    (fun acc e =>
      let u := lookupD acc.1 e.rtype + e.change
      let p := max (lookupD acc.2 e.rtype) u
      ((e.rtype, u) :: acc.1, (e.rtype, p) :: acc.2))
    ([], [])).2

/-- Model of the `SimulationResult` record for one run. -/
structure SimResult where
  runId : ℕ
  totalDuration : ℚ
  criticalPath : List String
  taskDurations : List (String × ℚ)
  taskStartTimes : List (String × ℚ)
  peakResources : List (String × ℚ)
deriving DecidableEq

/-- One iteration of the simulation loop: sample a duration per task
(consuming the draws `u 0, u 1, ...` in task order), run the forward
pass over the sorted tasks, generate, sort and sweep the resource
events. -/
def runOnce (tasks sortedTasks : List Task) (sqrt : ℚ → ℚ)
    (u : ℕ → ℚ) (i : ℕ) : SimResult :=
  let durs := tasks.enum.foldl
    (fun m jt =>
      (jt.2.id, sampleTriangular sqrt jt.2.optimistic jt.2.mostLikely
        jt.2.pessimistic (u jt.1)) :: m) []
  let fp := forwardPass durs sortedTasks [] [] 0
  let events := sortEvents (eventsOf tasks fp.1 fp.2.1)
  { runId := i
    totalDuration := fp.2.2
    criticalPath := []
    taskDurations := durs
    taskStartTimes := fp.1
    peakResources := sweepPeaks events }

/-- Insertion step of the ascending numeric sort. -/
def insertQ (x : ℚ) : List ℚ → List ℚ
  | [] => [x]
  | y :: ys => if x ≤ y then x :: y :: ys else y :: insertQ x ys

/-- Ascending numeric sort, modelling `.sort((a, b) => a - b)`. -/
def sortQ : List ℚ → List ℚ
  | [] => []
  | x :: xs => insertQ x (sortQ xs)

/-- The index `Math.floor(n * p)` used by `getPercentile` and the
per-resource `p90Peak`. -/
def percIdx (n : ℕ) (p : ℚ) : ℕ := (⌊(n : ℚ) * p⌋).toNat

/-- The `getPercentile` helper: sorted element at index
`Math.floor(length * p)`. -/
def percentileOf (sorted : List ℚ) (p : ℚ) : ℚ :=
  sorted.getD (percIdx sorted.length p) 0

/-- Per-resource summary record. -/
structure RStat where
  meanPeak : ℚ
  p90Peak : ℚ
  maxPeak : ℚ
deriving DecidableEq

/-- Model of the `SimulationStats` record. -/
structure SimStats where
  mean : ℚ
  median : ℚ
  stdDev : ℚ
  min : ℚ
  max : ℚ
  p50 : ℚ
  p90 : ℚ
  p95 : ℚ
  p99 : ℚ
  resourceStats : List (String × RStat)
deriving DecidableEq

/-- The `Set` of non-empty `resourceType` labels of the task
collection, in first-occurrence order (JS `Set` insertion order). -/
def resourceLabels (tasks : List Task) : List String :=
  tasks.foldl
    (fun acc t =>
      if t.resourceType ≠ "" ∧ t.resourceType ∉ acc then acc ++ [t.resourceType]
      else acc) []

/-- Per-resource aggregation: collect each run's recorded peak for the
type (`|| 0` when the run recorded none), sort ascending, and apply
the mean / percentile(0.9) / last-element formulas. -/
def rstatOf (results : List SimResult) (ty : String) : RStat :=
  let peaks := sortQ (results.map (fun r => lookupD r.peakResources ty))
  { meanPeak := peaks.foldl (· + ·) 0 / (peaks.length : ℚ)
    p90Peak := percentileOf peaks (9 / 10)
    maxPeak := peaks.getD (peaks.length - 1) 0 }

/-- The statistics aggregation of `runSimulation` (step 4). -/
def aggregate (tasks : List Task) (results : List SimResult)
    (sqrt : ℚ → ℚ) : SimStats :=
  let durations := sortQ (results.map SimResult.totalDuration)
  let n : ℚ := (durations.length : ℚ)
  let mean := durations.foldl (· + ·) 0 / n
  let median := durations.getD (durations.length / 2) 0
  let variance := durations.foldl (fun acc v => acc + (v - mean) ^ 2) 0 / n
  { mean := mean
    median := median
    stdDev := sqrt variance
    min := durations.getD 0 0
    max := durations.getD (durations.length - 1) 0
    p50 := median
    p90 := percentileOf durations (9 / 10)
    p95 := percentileOf durations (95 / 100)
    p99 := percentileOf durations (99 / 100)
    resourceStats := (resourceLabels tasks).map (fun ty => (ty, rstatOf results ty)) }

/-- Model of `runSimulation`: topological sort (whose thrown error
propagates before any run executes), then `iterations` independent
runs, then aggregation.  `Math.random()` is the stream `rng i j`
(iteration `i`, `j`-th task); `Math.sqrt` is `sqrt`. -/
def runSimulation (project : Project) (iterations : ℕ)
    (sqrt : ℚ → ℚ) (rng : ℕ → ℕ → ℚ) :
    Except String (List SimResult × SimStats) :=
  match topologicalSort project.tasks with
  | .error e => .error e
  | .ok sortedTasks =>
    let results := (List.range iterations).map
      (fun i => runOnce project.tasks sortedTasks sqrt (rng i) i)
    .ok (results, aggregate project.tasks results sqrt)

/-- Positions of dependencies: every dependency of the task at
position `i` that names an existing task appears, as some task's id,
at an earlier position `j < i`. -/
def DepsBeforeIf (tasks l : List Task) : Prop :=
  ∀ i (hi : i < l.length), ∀ d ∈ l[i].dependencies, d ∈ taskIds tasks →
    ∃ j, ∃ hj : j < l.length, j < i ∧ l[j].id = d

/-- Unconditional version: every dependency of the task at position
`i` appears, as some task's id, at an earlier position `j < i`. -/
def DepsBefore (l : List Task) : Prop :=
  ∀ i (hi : i < l.length), ∀ d ∈ l[i].dependencies,
    ∃ j, ∃ hj : j < l.length, j < i ∧ l[j].id = d

/-- Invariant tying the `visited` set to the emitted result list:
`visited` holds exactly the emitted ids, the emitted ids are distinct,
and every emitted task comes after its (existing) dependencies. -/
def AccInv (tasks : List Task) (acc : List String × List Task) : Prop :=
  (∀ v, v ∈ acc.1 ↔ v ∈ taskIds acc.2) ∧
  (taskIds acc.2).Nodup ∧
  DepsBeforeIf tasks acc.2

/-- The string `tid` occurs as a substring of `msg`. -/
def mentionsId (msg tid : String) : Prop := tid.toList <:+: msg.toList

/-! ### Concrete fixtures used by witnesses and counterexamples -/

/-- Fixture: a task with no dependencies, constant duration 2, using
3 units of resource `"dev"` while active. -/
def taskA : Task := ⟨"a", "A", 2, 2, 2, [], "dev", 3⟩

/-- Fixture: a task depending on `taskA`, constant duration 2, using
2 units of resource `"dev"` while active. -/
def taskB : Task := ⟨"b", "B", 2, 2, 2, ["a"], "dev", 2⟩

/-- Fixture: a lone task with estimates (1, 2, 3) and no resource. -/
def taskSolo : Task := ⟨"a", "A", 1, 2, 3, [], "", 0⟩

/-- Fixture project around `taskSolo`. -/
def projSolo : Project := ⟨"p", "", [taskSolo]⟩

/-- Fixture: two tasks depending on each other (a dependency cycle);
the ids are chosen so that neither occurs as a substring of the thrown
error message. -/
def taskCycA : Task := ⟨"t1", "A", 1, 1, 1, ["t2"], "", 0⟩

/-- Other half of the two-task dependency cycle. -/
def taskCycB : Task := ⟨"t2", "B", 1, 1, 1, ["t1"], "", 0⟩

/-- Fixture: a task depending on `taskSolo`. -/
def taskDep : Task := ⟨"b", "B", 1, 1, 1, ["a"], "", 0⟩

/-- Fixture: a task whose dependency list references the id `"ghost"`,
which names no task. -/
def taskGhost : Task := ⟨"x", "X", 1, 1, 1, ["ghost"], "", 0⟩

/-- Fixture: a task labelled with resource `"dev"` but a zero (falsy)
resource count, so it emits no allocation events. -/
def taskRZ : Task := ⟨"a", "A", 1, 1, 1, [], "dev", 0⟩

/-- Fixture project around `taskRZ`. -/
def projRZ : Project := ⟨"p", "", [taskRZ]⟩

/-- Fixture factory: a task with constant duration `d` (all three
estimates equal) and no resource. -/
def constTask (i : String) (deps : List String) (d : ℚ) : Task :=
  ⟨i, i, d, d, d, deps, "", 0⟩

/-- Fixture factory: the two-task chain `a -> b` with constant
durations `dA` and `dB`. -/
def chainProj (dA dB : ℚ) : Project :=
  ⟨"chain", "", [constTask "a" [] dA, constTask "b" ["a"] dB]⟩

/-- Fixture: a completed run with total duration 3. -/
def resFixA : SimResult := ⟨0, 3, [], [], [], []⟩

/-- Fixture: a completed run with total duration 1. -/
def resFixB : SimResult := ⟨1, 1, [], [], [], []⟩

/-! ### Helper lemmas -/

/-- In the degenerate case `tMin = tMax` the sampler returns the
constant, in every branch, provided only that `sqrt 0 = 0`. -/
theorem sampleTriangular_const (sqrt : ℚ → ℚ) (hsqrt : sqrt 0 = 0)
    (c mode u : ℚ) : sampleTriangular sqrt c mode c u = c := by
  simp only [sampleTriangular, sub_self, mul_zero, zero_mul, if_pos rfl]
  split <;> simp [hsqrt]

/-- Percentile indices are in bounds for a nonempty vector. -/
theorem percIdx_lt (n : ℕ) (hn : 1 ≤ n) (p : ℚ) (hp0 : 0 ≤ p)
    (hp1 : p < 1) : percIdx n p < n := by
  have hnn : (0 : ℚ) < (n : ℚ) := by exact_mod_cast hn
  have hlt : (n : ℚ) * p < (n : ℚ) := by
    calc (n : ℚ) * p < (n : ℚ) * 1 := by
          exact mul_lt_mul_of_pos_left hp1 hnn
      _ = (n : ℚ) := mul_one _
  have h1 : ⌊(n : ℚ) * p⌋ < (n : ℤ) := Int.floor_lt.mpr (by exact_mod_cast hlt)
  have h0 : (0 : ℤ) ≤ ⌊(n : ℚ) * p⌋ :=
    Int.floor_nonneg.mpr (mul_nonneg (by positivity) hp0)
  unfold percIdx
  omega

/-- Percentile indices are monotone in `p`. -/
theorem percIdx_mono (n : ℕ) {p q : ℚ} (hpq : p ≤ q) :
    percIdx n p ≤ percIdx n q := by
  have := Int.floor_le_floor
    (mul_le_mul_of_nonneg_left hpq (by positivity : (0 : ℚ) ≤ (n : ℚ)))
  unfold percIdx
  omega

/-- Membership through the insertion step of the numeric sort. -/
theorem mem_insertQ {b x : ℚ} {l : List ℚ} :
    b ∈ insertQ x l ↔ b = x ∨ b ∈ l := by
  induction l with
  | nil => simp [insertQ]
  | cons y ys ih =>
    rw [insertQ]
    split
    · simp
    · simp only [List.mem_cons, ih]
      tauto

/-- The insertion step preserves length. -/
theorem insertQ_length (x : ℚ) (l : List ℚ) :
    (insertQ x l).length = l.length + 1 := by
  induction l with
  | nil => rfl
  | cons y ys ih =>
    rw [insertQ]
    split <;> simp [ih]

/-- The numeric sort preserves length. -/
theorem sortQ_length (l : List ℚ) : (sortQ l).length = l.length := by
  induction l with
  | nil => rfl
  | cons x xs ih => simp [sortQ, insertQ_length, ih]

/-- The insertion step preserves sortedness. -/
theorem insertQ_sorted (x : ℚ) {l : List ℚ}
    (h : l.Sorted (· ≤ ·)) : (insertQ x l).Sorted (· ≤ ·) := by
  induction l with
  | nil => simp [insertQ]
  | cons y ys ih =>
    rw [List.sorted_cons] at h
    rw [insertQ]
    split
    · rw [List.sorted_cons]
      refine ⟨?_, List.sorted_cons.mpr h⟩
      intro b hb
      rcases List.mem_cons.mp hb with rfl | hb
      · assumption
      · exact le_trans (by assumption) (h.1 b hb)
    · rw [List.sorted_cons]
      refine ⟨?_, ih h.2⟩
      intro b hb
      rcases mem_insertQ.mp hb with rfl | hb
      · exact le_of_not_le (by assumption)
      · exact h.1 b hb

/-- The numeric sort sorts ascending. -/
theorem sortQ_sorted (l : List ℚ) : (sortQ l).Sorted (· ≤ ·) := by
  induction l with
  | nil => simp [sortQ]
  | cons x xs ih => exact insertQ_sorted x ih

/-- The percentile index as a natural floor. -/
theorem percIdx_eq_natFloor (n : ℕ) (p : ℚ) :
    percIdx n p = ⌊(n : ℚ) * p⌋₊ := Int.floor_toNat _

/-- The index used for percentile 0.5 coincides with the median index
`floor(n / 2)`. -/
theorem percIdx_half (n : ℕ) : percIdx n (1/2) = n / 2 := by
  rw [percIdx_eq_natFloor, show (n : ℚ) * (1/2) = (n : ℚ) / 2 by ring]
  simpa using Nat.floor_div_eq_div (α := ℚ) n 2

/-- Reading a sorted vector at two in-bound indices in order is
monotone. -/
theorem sorted_getD_mono {l : List ℚ} (hs : l.Sorted (· ≤ ·)) {i j : ℕ}
    (hij : i ≤ j) (hj : j < l.length) : l.getD i 0 ≤ l.getD j 0 := by
  have hi : i < l.length := lt_of_le_of_lt hij hj
  have hgi : l.getD i 0 = l.get ⟨i, hi⟩ := by
    simp [List.getD_eq_getElem?_getD, List.getElem?_eq_getElem, hi]
  have hgj : l.getD j 0 = l.get ⟨j, hj⟩ := by
    simp [List.getD_eq_getElem?_getD, List.getElem?_eq_getElem, hj]
  rw [hgi, hgj]
  exact hs.rel_get_of_le hij

/-- Membership through the numeric sort. -/
theorem mem_sortQ {b : ℚ} {l : List ℚ} : b ∈ sortQ l ↔ b ∈ l := by
  induction l with
  | nil => simp [sortQ]
  | cons x xs ih => simp [sortQ, mem_insertQ, ih]

/-- A left fold of addition over an all-zero list is zero. -/
theorem foldl_add_zero {l : List ℚ} (h : ∀ x ∈ l, x = 0) :
    l.foldl (· + ·) 0 = 0 := by
  have key : ∀ (l' : List ℚ) (a : ℚ), (∀ x ∈ l', x = 0) →
      l'.foldl (· + ·) a = a := by
    intro l'
    induction l' with
    | nil => intro a _; rfl
    | cons x xs ih =>
      intro a hz
      rw [List.foldl_cons, hz x (by simp), add_zero]
      exact ih a fun y hy => hz y (by simp [hy])
  exact key l 0 h

/-- Reading an all-zero list with default 0 gives 0 at any index. -/
theorem getD_zero_of_all_zero {l : List ℚ} (h : ∀ x ∈ l, x = 0) (i : ℕ) :
    l.getD i 0 = 0 := by
  rw [List.getD_eq_getElem?_getD]
  rcases hx : l[i]? with _ | x
  · rfl
  · obtain ⟨hlt, hv⟩ := List.getElem?_eq_some_iff.mp hx
    exact h x (hv ▸ List.getElem_mem hlt)

/-- Membership in the accumulated label set of `resourceLabels`. -/
theorem mem_resourceLabels_foldl (tasks : List Task) (s : String) :
    ∀ acc : List String,
      s ∈ tasks.foldl
        (fun acc t =>
          if t.resourceType ≠ "" ∧ t.resourceType ∉ acc then
            acc ++ [t.resourceType]
          else acc) acc
      ↔ s ∈ acc ∨ (s ≠ "" ∧ ∃ t ∈ tasks, t.resourceType = s) := by
  induction tasks with
  | nil => simp
  | cons t ts ih =>
    intro acc
    rw [List.foldl_cons, ih]
    constructor
    · rintro (hmem | hrest)
      · split at hmem
        · rcases List.mem_append.mp hmem with h | h
          · exact Or.inl h
          · have hs : s = t.resourceType := by simpa using h
            subst hs
            exact Or.inr ⟨by tauto, t, by simp⟩
        · exact Or.inl hmem
      · obtain ⟨hne, t', ht', he⟩ := hrest
        exact Or.inr ⟨hne, t', by simp [ht'], he⟩
    · rintro (hacc | ⟨hne, t', ht', heq⟩)
      · left
        split
        · exact List.mem_append.mpr (Or.inl hacc)
        · exact hacc
      · rcases List.mem_cons.mp ht' with rfl | hmem
        · by_cases hc : t'.resourceType ≠ "" ∧ t'.resourceType ∉ acc
          · left
            rw [if_pos hc]
            exact List.mem_append.mpr (Or.inr (by simp [heq]))
          · left
            rw [if_neg hc]
            rcases not_and_or.mp hc with h1 | h2
            · exact absurd (heq ▸ hne) (by simpa using h1)
            · simpa [heq] using not_not.mp h2
        · exact Or.inr ⟨hne, t', hmem, heq⟩

/-- Membership in `resourceLabels`: exactly the non-empty resource
type labels present in the task collection. -/
theorem mem_resourceLabels (tasks : List Task) (s : String) :
    s ∈ resourceLabels tasks ↔
      s ≠ "" ∧ ∃ t ∈ tasks, t.resourceType = s := by
  rw [resourceLabels, mem_resourceLabels_foldl]
  simp

/-- A resource type for which no run recorded a peak gets the all-zero
summary record. -/
theorem rstatOf_all_zero (results : List SimResult) (ty : String)
    (h : ∀ r ∈ results, r.peakResources.lookup ty = none) :
    rstatOf results ty = ⟨0, 0, 0⟩ := by
  have hz : ∀ x ∈ sortQ (results.map fun r => lookupD r.peakResources ty),
      x = 0 := by
    intro x hx
    rcases List.mem_map.mp (mem_sortQ.mp hx) with ⟨r, hr, hval⟩
    rw [← hval, lookupD, h r hr]
    rfl
  rw [rstatOf]
  simp only [RStat.mk.injEq]
  refine ⟨?_, ?_, ?_⟩
  · rw [foldl_add_zero hz, zero_div]
  · exact getD_zero_of_all_zero hz _
  · exact getD_zero_of_all_zero hz _

/-! ### Claim C1: topological sort -/

theorem visitMany_error_msg (tasks : List Task) (temp ids : List String)
    (acc : List String × List Task) (e : String)
    (h : visitMany tasks temp ids acc = .error e) :
    e = "Circular dependency detected" := by
  induction temp, ids, acc using visitMany.induct tasks with
  | case1 x acc => rw [visitMany] at h; cases h
  | case2 temp id rest acc hmem =>
    rw [visitMany] at h
    rw [dif_pos hmem] at h
    cases h
    rfl
  | case3 temp id rest acc hmem hvis ih =>
    rw [visitMany, dif_neg hmem, if_pos hvis] at h
    exact ih h
  | case4 temp id rest acc hmem hvis task hfind e' hinner ih =>
    rw [visitMany, dif_neg hmem, if_neg hvis, hfind] at h
    dsimp only at h
    rw [hinner] at h
    cases h
    exact ih hinner
  | case5 temp id rest acc hmem hvis task hfind acc' hinner ih1 ih2 =>
    rw [visitMany, dif_neg hmem, if_neg hvis, hfind] at h
    dsimp only at h
    rw [hinner] at h
    exact ih2 h
  | case6 temp id rest acc hmem hvis hfind ih =>
    rw [visitMany, dif_neg hmem, if_neg hvis, hfind] at h
    exact ih h

/-- Structural facts about a successful visit: `visited` grows, the
result grows by appending, every requested id ends up visited or names
no task, ids newly visited were not on the entry path, and emitted
tasks come from the collection. -/
theorem visitMany_ok_spec (tasks : List Task) (temp ids : List String)
    (acc acc' : List String × List Task)
    (h : visitMany tasks temp ids acc = .ok acc') :
    (∀ v ∈ acc.1, v ∈ acc'.1) ∧
    (∃ ext, acc'.2 = acc.2 ++ ext) ∧
    (∀ x ∈ ids, x ∈ acc'.1 ∨ x ∉ taskIds tasks) ∧
    (∀ v ∈ acc'.1, v ∈ acc.1 ∨ v ∉ temp) ∧
    (∀ t ∈ acc'.2, t ∈ acc.2 ∨ t ∈ tasks) := by
  induction temp, ids, acc using visitMany.induct tasks generalizing acc' with
  | case1 x acc =>
    rw [visitMany] at h
    cases h
    exact ⟨fun v hv => hv, ⟨[], by simp⟩, by simp, fun v hv => Or.inl hv,
      fun t ht => Or.inl ht⟩
  | case2 temp id rest acc hmem =>
    rw [visitMany, dif_pos hmem] at h
    cases h
  | case3 temp id rest acc hmem hvis ih =>
    rw [visitMany, dif_neg hmem, if_pos hvis] at h
    obtain ⟨h1, h2, h3, h4, h5⟩ := ih _ h
    refine ⟨h1, h2, ?_, h4, h5⟩
    intro x hx
    rcases List.mem_cons.mp hx with rfl | hx
    · exact Or.inl (h1 _ hvis)
    · exact h3 x hx
  | case4 temp id rest acc hmem hvis task hfind e' hinner ih =>
    rw [visitMany, dif_neg hmem, if_neg hvis, hfind] at h
    dsimp only at h
    rw [hinner] at h
    cases h
  | case5 temp id rest acc hmem hvis task hfind acc1 hinner ih1 ih2 =>
    rw [visitMany, dif_neg hmem, if_neg hvis, hfind] at h
    dsimp only at h
    rw [hinner] at h
    obtain ⟨g1, g2, g3, g4, g5⟩ := ih1 _ hinner
    obtain ⟨k1, k2, k3, k4, k5⟩ := ih2 _ h
    have hidacc : id ∈ acc'.1 := k1 id (by simp)
    refine ⟨?_, ?_, ?_, ?_, ?_⟩
    · intro v hv
      exact k1 v (by simp [g1 v hv])
    · obtain ⟨e1, he1⟩ := g2
      obtain ⟨e2, he2⟩ := k2
      exact ⟨e1 ++ [task] ++ e2, by simp [he2, he1]⟩
    · intro x hx
      rcases List.mem_cons.mp hx with rfl | hx
      · exact Or.inl hidacc
      · exact k3 x hx
    · intro v hv
      rcases k4 v hv with hv1 | hv1
      · rcases List.mem_cons.mp hv1 with rfl | hv2
        · exact Or.inr hmem
        · rcases g4 v hv2 with hv3 | hv3
          · exact Or.inl hv3
          · exact Or.inr fun hc => hv3 (by simp [hc])
      · exact Or.inr hv1
    · intro t ht
      rcases k5 t ht with ht1 | ht1
      · rcases List.mem_append.mp ht1 with ht2 | ht2
        · rcases g5 t ht2 with h' | h'
          · exact Or.inl h'
          · exact Or.inr h'
        · have heq : t = task := by simpa using ht2
          exact Or.inr (heq ▸ List.mem_of_find?_eq_some hfind)
      · exact Or.inr ht1
  | case6 temp id rest acc hmem hvis hfind ih =>
    rw [visitMany, dif_neg hmem, if_neg hvis, hfind] at h
    dsimp only at h
    obtain ⟨h1, h2, h3, h4, h5⟩ := ih _ h
    refine ⟨h1, h2, ?_, h4, h5⟩
    intro x hx
    rcases List.mem_cons.mp hx with rfl | hx
    · right
      intro hc
      rcases List.mem_map.mp hc with ⟨t, ht, hid⟩
      have hne := List.find?_eq_none.mp hfind t ht
      simp [hid] at hne
    · exact h3 x hx

/-- A successful visit preserves the accumulator invariant. -/
theorem visitMany_inv (tasks : List Task) (temp ids : List String)
    (acc acc' : List String × List Task)
    (h : visitMany tasks temp ids acc = .ok acc')
    (hinv : AccInv tasks acc) : AccInv tasks acc' := by
  induction temp, ids, acc using visitMany.induct tasks generalizing acc' with
  | case1 x acc =>
    rw [visitMany] at h
    cases h
    exact hinv
  | case2 temp id rest acc hmem =>
    rw [visitMany, dif_pos hmem] at h
    cases h
  | case3 temp id rest acc hmem hvis ih =>
    rw [visitMany, dif_neg hmem, if_pos hvis] at h
    exact ih _ h hinv
  | case4 temp id rest acc hmem hvis task hfind e' hinner ih =>
    rw [visitMany, dif_neg hmem, if_neg hvis, hfind] at h
    dsimp only at h
    rw [hinner] at h
    cases h
  | case5 temp id rest acc hmem hvis task hfind acc1 hinner ih1 ih2 =>
    rw [visitMany, dif_neg hmem, if_neg hvis, hfind] at h
    dsimp only at h
    rw [hinner] at h
    have hinv1 : AccInv tasks acc1 := ih1 _ hinner hinv
    have hid : task.id = id := by simpa using List.find?_some hfind
    have hspec := visitMany_ok_spec tasks (id :: temp) task.dependencies acc
      acc1 hinner
    have hidnotvis : id ∉ acc1.1 := by
      intro hc
      rcases hspec.2.2.2.1 id hc with hc' | hc'
      · exact hvis hc'
      · exact hc' (by simp)
    have hidnotids : id ∉ taskIds acc1.2 := fun hc =>
      hidnotvis ((hinv1.1 id).mpr hc)
    have hids2 : taskIds (acc1.2 ++ [task]) = taskIds acc1.2 ++ [id] := by
      simp [taskIds, hid]
    dsimp only at h
    refine ih2 _ h ⟨?_, ?_, ?_⟩
    · intro v
      rw [hids2]
      simp only [List.mem_cons, List.mem_append, List.mem_singleton]
      rw [hinv1.1 v]
      tauto
    · rw [hids2]
      simp only [List.nodup_append, List.nodup_singleton, true_and]
      refine ⟨hinv1.2.1, ?_⟩
      intro x hx
      simp only [List.mem_singleton]
      intro hxe
      exact hidnotids (hxe ▸ hx)
    · show DepsBeforeIf tasks (acc1.2 ++ [task])
      intro i hi d hd hdmem
      rcases Nat.lt_or_ge i acc1.2.length with hlt | hge
      · have hgetl : (acc1.2 ++ [task])[i] = acc1.2[i] :=
          List.getElem_append_left hlt
        rw [hgetl] at hd
        obtain ⟨j, hj, hji, hjid⟩ := hinv1.2.2 i hlt d hd hdmem
        refine ⟨j, by simp; omega, hji, ?_⟩
        have : (acc1.2 ++ [task])[j] = acc1.2[j] :=
          List.getElem_append_left hj
        rw [this, hjid]
      · have hieq : i = acc1.2.length := by
          have := hi
          simp only [List.length_append, List.length_singleton] at this
          omega
        subst hieq
        have hgetr : (acc1.2 ++ [task])[acc1.2.length] = task :=
          List.getElem_concat_length _ _ _ rfl _
        rw [hgetr] at hd
        have hdvis : d ∈ acc1.1 := by
          rcases hspec.2.2.1 d hd with h' | h'
          · exact h'
          · exact absurd hdmem h'
        have hdids : d ∈ taskIds acc1.2 := (hinv1.1 d).mp hdvis
        rcases List.mem_map.mp hdids with ⟨t', ht', htid⟩
        obtain ⟨j, hj, hjval⟩ := List.mem_iff_getElem.mp ht'
        refine ⟨j, by simp; omega, by omega, ?_⟩
        have : (acc1.2 ++ [task])[j] = acc1.2[j] :=
          List.getElem_append_left hj
        rw [this, hjval, htid]
  | case6 temp id rest acc hmem hvis hfind ih =>
    rw [visitMany, dif_neg hmem, if_neg hvis, hfind] at h
    dsimp only at h
    exact ih _ h hinv

/-- Specification of a successful `topologicalSort`: the emitted list
draws from the task collection, contains every task id, has distinct
ids, and places every task after its existing dependencies. -/
theorem topologicalSort_ok_spec (tasks l : List Task)
    (hok : topologicalSort tasks = .ok l) :
    (∀ t ∈ l, t ∈ tasks) ∧ (∀ a ∈ taskIds tasks, a ∈ taskIds l) ∧
    (taskIds l).Nodup ∧ DepsBeforeIf tasks l := by
  rw [topologicalSort] at hok
  rcases hv : visitMany tasks [] (tasks.map Task.id) ([], []) with e | acc'
  · rw [hv] at hok
    cases hok
  · rw [hv] at hok
    simp only [Except.map, Except.ok.injEq] at hok
    subst hok
    have hinit : AccInv tasks ([], []) := by
      refine ⟨by simp [taskIds], by simp [taskIds], ?_⟩
      intro i hi
      simp at hi
    have hinv := visitMany_inv tasks [] (tasks.map Task.id) ([], []) acc' hv hinit
    have hspec := visitMany_ok_spec tasks [] (tasks.map Task.id) ([], []) acc' hv
    refine ⟨?_, ?_, hinv.2.1, hinv.2.2⟩
    · intro t ht
      rcases hspec.2.2.2.2 t ht with h' | h'
      · simp at h'
      · exact h'
    · intro a ha
      rcases hspec.2.2.1 a ha with h' | h'
      · exact (hinv.1 a).mp h'
      · exact absurd ha h'

/-- Walking a dependency chain strictly decreases positions in a list
that puts every task after its existing dependencies. -/
theorem transGen_pos_decrease (tasks l : List Task)
    (hsub : ∀ t ∈ l, t ∈ tasks) (hN : (taskIds tasks).Nodup)
    (hord : DepsBeforeIf tasks l) {a b : String}
    (htg : Relation.TransGen (depRel tasks) a b) :
    b ∈ taskIds tasks →
    ∀ i (hi : i < l.length), l[i].id = a →
      ∃ j, ∃ hj : j < l.length, j < i ∧ l[j].id = b := by
  induction htg with
  | single hstep =>
    obtain ⟨t, ht, hta, htb⟩ := hstep
    intro hbmem i hi hia
    have hli : l[i] ∈ tasks := hsub _ (List.getElem_mem hi)
    have hti : l[i] = t := by
      have := List.inj_on_of_nodup_map (f := Task.id) hN hli ht
      exact this (by rw [hia, hta])
    obtain ⟨j, hj, hji, hjid⟩ := hord i hi _ (by rw [hti]; exact htb) hbmem
    exact ⟨j, hj, hji, hjid⟩
  | tail htg' hstep ih =>
    obtain ⟨t, ht, htb, htc⟩ := hstep
    intro hcmem i hi hia
    have hbmem : _ ∈ taskIds tasks := htb ▸ List.mem_map_of_mem Task.id ht
    obtain ⟨j, hj, hji, hjid⟩ := ih hbmem i hi hia
    have hlj : l[j] ∈ tasks := hsub _ (List.getElem_mem hj)
    have htj : l[j] = t := by
      have := List.inj_on_of_nodup_map (f := Task.id) hN hlj ht
      exact this (by rw [hjid, htb])
    obtain ⟨k, hk, hkj, hkid⟩ := hord j hj _ (by rw [htj]; exact htc) hcmem
    exact ⟨k, hk, lt_trans hkj hji, hkid⟩

/-- A successful `topologicalSort` implies the dependency relation is
acyclic (given distinct task ids). -/
theorem topologicalSort_acyclic_of_ok (tasks l : List Task)
    (hN : (taskIds tasks).Nodup) (hok : topologicalSort tasks = .ok l) :
    Acyclic tasks := by
  obtain ⟨hsub, hcomp, hNl, hord⟩ := topologicalSort_ok_spec tasks l hok
  intro a htg
  have hsrc : ∀ y, Relation.TransGen (depRel tasks) a y →
      ∃ z, depRel tasks a z := by
    intro y hy
    induction hy with
    | single h => exact ⟨_, h⟩
    | tail _ _ ih => exact ih
  obtain ⟨z, ⟨t, ht, hta, _⟩⟩ := hsrc a htg
  have ha : a ∈ taskIds tasks := hta ▸ List.mem_map_of_mem Task.id ht
  have hal : a ∈ taskIds l := hcomp a ha
  rcases List.mem_map.mp hal with ⟨t', ht', htid⟩
  obtain ⟨i, hi, hival⟩ := List.mem_iff_getElem.mp ht'
  obtain ⟨j, hj, hji, hjid⟩ :=
    transGen_pos_decrease tasks l hsub hN hord htg ha i hi (by rw [hival, htid])
  have hjt : j < (taskIds l).length := by simpa [taskIds] using hj
  have hit : i < (taskIds l).length := by simpa [taskIds] using hi
  have hvals : (taskIds l)[j] = (taskIds l)[i] := by
    simp only [taskIds, List.getElem_map]
    rw [hjid, hival, htid]
  have := hNl.getElem_inj_iff.mp hvals
  omega

/-- With an acyclic dependency relation the visit never throws. -/
theorem visitMany_ok_of_acyclic (tasks : List Task) (hacyc : Acyclic tasks)
    (temp ids : List String) (acc : List String × List Task)
    (hchain : ∀ x ∈ temp, ∀ e ∈ ids, Relation.TransGen (depRel tasks) x e) :
    ∃ acc', visitMany tasks temp ids acc = .ok acc' := by
  induction temp, ids, acc using visitMany.induct tasks with
  | case1 x acc => exact ⟨acc, by rw [visitMany]⟩
  | case2 temp id rest acc hmem =>
    exact absurd (hchain id hmem id (by simp)) (hacyc id)
  | case3 temp id rest acc hmem hvis ih =>
    obtain ⟨acc', h'⟩ := ih fun x hx e he => hchain x hx e (by simp [he])
    exact ⟨acc', by rw [visitMany, dif_neg hmem, if_pos hvis]; exact h'⟩
  | case4 temp id rest acc hmem hvis task hfind e' hinner ih =>
    have hid : task.id = id := by simpa using List.find?_some hfind
    have hsub : ∀ x ∈ id :: temp, ∀ e ∈ task.dependencies,
        Relation.TransGen (depRel tasks) x e := by
      intro x hx e he
      have hstep : depRel tasks id e :=
        ⟨task, List.mem_of_find?_eq_some hfind, hid, he⟩
      rcases List.mem_cons.mp hx with rfl | hx'
      · exact Relation.TransGen.single hstep
      · exact Relation.TransGen.tail (hchain x hx' id (by simp)) hstep
    obtain ⟨acc1, h1⟩ := ih hsub
    rw [hinner] at h1
    cases h1
  | case5 temp id rest acc hmem hvis task hfind acc1 hinner ih1 ih2 =>
    obtain ⟨acc', h'⟩ := ih2 fun x hx e he => hchain x hx e (by simp [he])
    refine ⟨acc', ?_⟩
    rw [visitMany, dif_neg hmem, if_neg hvis, hfind]
    dsimp only
    rw [hinner]
    exact h'
  | case6 temp id rest acc hmem hvis hfind ih =>
    obtain ⟨acc', h'⟩ := ih fun x hx e he => hchain x hx e (by simp [he])
    refine ⟨acc', ?_⟩
    rw [visitMany, dif_neg hmem, if_neg hvis, hfind]
    exact h'

/-- With an acyclic dependency relation, `topologicalSort` succeeds. -/
theorem topologicalSort_ok_of_acyclic (tasks : List Task)
    (hacyc : Acyclic tasks) : ∃ l, topologicalSort tasks = .ok l := by
  obtain ⟨acc', h⟩ := visitMany_ok_of_acyclic tasks hacyc []
    (tasks.map Task.id) ([], []) (by simp)
  exact ⟨acc'.2, by rw [topologicalSort, h]; rfl⟩

/-- A dependency cycle forces the fixed `"Circular dependency
detected"` error (given distinct task ids). -/
theorem topologicalSort_error_of_cycle (tasks : List Task)
    (hN : (taskIds tasks).Nodup)
    (hcyc : ∃ a, Relation.TransGen (depRel tasks) a a) :
    topologicalSort tasks = .error "Circular dependency detected" := by
  rcases h : topologicalSort tasks with e | l
  · rw [topologicalSort] at h
    rcases hv : visitMany tasks [] (tasks.map Task.id) ([], []) with e' | p
    · rw [hv] at h
      simp only [Except.map] at h
      cases h
      rw [visitMany_error_msg _ _ _ _ _ hv]
    · rw [hv] at h
      simp only [Except.map] at h
      cases h
  · exfalso
    obtain ⟨a, ha⟩ := hcyc
    exact (topologicalSort_acyclic_of_ok tasks l hN h) a ha

/-- A rank function strictly decreasing along dependencies certifies
acyclicity. -/
theorem acyclic_of_rank (tasks : List Task) (rank : String → ℕ)
    (h : ∀ a b, depRel tasks a b → rank b < rank a) : Acyclic tasks := by
  intro a htg
  have key : ∀ x y, Relation.TransGen (depRel tasks) x y →
      rank y < rank x := by
    intro x y h'
    induction h' with
    | single hs => exact h _ _ hs
    | tail _ hs ih => exact lt_trans (h _ _ hs) ih
  exact lt_irrefl _ (key a a htg)

/-- Claim C1: for a task collection with distinct ids whose dependency
relation is acyclic and whose dependency ids all name existing tasks,
`topologicalSort` returns an ordering of exactly the given tasks in
which every task appears after all tasks it depends on; for a
collection containing a dependency cycle it deterministically throws
(the fixed `"Circular dependency detected"` error) and, returning
through `Except.error`, emits no partial order. -/
theorem C1_topologicalSort (tasks : List Task)
    (hN : (taskIds tasks).Nodup) :
    ((Acyclic tasks ∧ AllDepsExist tasks) →
      ∃ l, topologicalSort tasks = .ok l ∧ (∀ t, t ∈ l ↔ t ∈ tasks) ∧
        DepsBefore l) ∧
    ((∃ a, Relation.TransGen (depRel tasks) a a) →
      topologicalSort tasks = .error "Circular dependency detected") := by
  constructor
  · rintro ⟨hacyc, hdeps⟩
    obtain ⟨l, hok⟩ := topologicalSort_ok_of_acyclic tasks hacyc
    obtain ⟨hsub, hcomp, hNl, hord⟩ := topologicalSort_ok_spec tasks l hok
    refine ⟨l, hok, ?_, ?_⟩
    · intro t
      constructor
      · exact hsub t
      · intro ht
        have hmem : t.id ∈ taskIds l := hcomp t.id (List.mem_map_of_mem _ ht)
        rcases List.mem_map.mp hmem with ⟨t', ht', htid⟩
        have heq : t' = t :=
          List.inj_on_of_nodup_map (f := Task.id) hN (hsub t' ht') ht htid
        exact heq ▸ ht'
    · intro i hi d hd
      have hmem : d ∈ taskIds tasks :=
        hdeps l[i] (hsub _ (List.getElem_mem hi)) d hd
      exact hord i hi d hd hmem
  · intro hcyc
    exact topologicalSort_error_of_cycle tasks hN hcyc

/-- Witness for C1: the two-task chain sorts successfully with the
claimed ordering, and the two-task cycle throws. -/
theorem C1_witness :
    (∃ l, topologicalSort [taskSolo, taskDep] = .ok l ∧
      (∀ t, t ∈ l ↔ t ∈ [taskSolo, taskDep]) ∧ DepsBefore l) ∧
    topologicalSort [taskCycA, taskCycB]
      = .error "Circular dependency detected" := by
  constructor
  · refine (C1_topologicalSort [taskSolo, taskDep] (by decide)).1 ⟨?_, ?_⟩
    · refine acyclic_of_rank _ (fun s => if s = "b" then 1 else 0) ?_
      rintro a b ⟨t, ht, hta, htb⟩
      rcases List.mem_cons.mp ht with rfl | ht'
      · simp [taskSolo] at htb
      · rcases List.mem_cons.mp ht' with rfl | ht''
        · have hb : b = "a" := by simpa [taskDep] using htb
          have ha2 : a = "b" := by simpa [taskDep] using hta.symm
          subst hb; subst ha2
          simp
        · simp at ht''
    · intro t ht d hd
      rcases List.mem_cons.mp ht with rfl | ht'
      · simp [taskSolo] at hd
      · rcases List.mem_cons.mp ht' with rfl | ht''
        · have hd2 : d = "a" := by simpa [taskDep] using hd
          subst hd2
          simp [taskIds, taskSolo, taskDep]
        · simp at ht''
  · refine (C1_topologicalSort [taskCycA, taskCycB] (by decide)).2 ⟨"t1", ?_⟩
    have h12 : depRel [taskCycA, taskCycB] "t1" "t2" :=
      ⟨taskCycA, by simp, rfl, by simp [taskCycA]⟩
    have h21 : depRel [taskCycA, taskCycB] "t2" "t1" :=
      ⟨taskCycB, by simp, rfl, by simp [taskCycB]⟩
    exact Relation.TransGen.tail (Relation.TransGen.single h12) h21

/-! ### Claim C2: resource peak tie-break -/

/-- Claim C2 fails on the code (code bug): the sweep reads the peak
after every single event rather than combining all deltas sharing a
timestamp.  On the two-task chain `taskA` (3 units of `"dev"`,
finishing at time 2) and `taskB` (2 units, starting at time 2), the
recorded peak depends on the order of the tasks in the input
collection: listed as `[taskB, taskA]` the acquisition `+2` at time 2
is processed before the release `-3`, producing the spurious peak
`5 = 3 + 2` (the pre-release total plus the new acquisition), while
the order `[taskA, taskB]` yields the true peak `3`. -/
theorem C2_spurious_peak :
    (∃ res stats,
      runSimulation ⟨"p", "", [taskB, taskA]⟩ 1 (fun _ => 0) (fun _ _ => 0)
        = .ok (res, stats) ∧
      ∀ r ∈ res, lookupD r.peakResources "dev" = 5) ∧
    (∃ res stats,
      runSimulation ⟨"p", "", [taskA, taskB]⟩ 1 (fun _ => 0) (fun _ _ => 0)
        = .ok (res, stats) ∧
      ∀ r ∈ res, lookupD r.peakResources "dev" = 3) := by
  constructor
  · have htopo : topologicalSort [taskB, taskA] = .ok [taskA, taskB] := by
      simp [topologicalSort, visitMany, taskA, taskB, List.find?_cons,
        Except.map]
    refine ⟨[runOnce [taskB, taskA] [taskA, taskB] (fun _ => 0) (fun _ => 0) 0],
      aggregate [taskB, taskA]
        [runOnce [taskB, taskA] [taskA, taskB] (fun _ => 0) (fun _ => 0) 0]
        (fun _ => 0), ?_, ?_⟩
    · rw [runSimulation]
      dsimp only
      rw [htopo]
      simp [List.range_succ]
    · intro r hr
      rcases List.mem_singleton.mp hr with rfl
      simp [runOnce, forwardPass, sampleTriangular, lookupD, maxOfList,
        taskA, taskB, List.enum, List.lookup, eventsOf, sortEvents,
        insertEvent, sweepPeaks, max_def]
      norm_num
  · have htopo : topologicalSort [taskA, taskB] = .ok [taskA, taskB] := by
      simp [topologicalSort, visitMany, taskA, taskB, List.find?_cons,
        Except.map]
    refine ⟨[runOnce [taskA, taskB] [taskA, taskB] (fun _ => 0) (fun _ => 0) 0],
      aggregate [taskA, taskB]
        [runOnce [taskA, taskB] [taskA, taskB] (fun _ => 0) (fun _ => 0) 0]
        (fun _ => 0), ?_, ?_⟩
    · rw [runSimulation]
      dsimp only
      rw [htopo]
      simp [List.range_succ]
    · intro r hr
      rcases List.mem_singleton.mp hr with rfl
      simp [runOnce, forwardPass, sampleTriangular, lookupD, maxOfList,
        taskA, taskB, List.enum, List.lookup, eventsOf, sortEvents,
        insertEvent, sweepPeaks, max_def]
      norm_num


/-! ### Claim C3: unknown dependency ids -/

/-- Claim C3 fails on the code (code bug): a dependency id naming no
task is silently skipped, not reported.  With the single task
`taskGhost`, whose dependency list references the nonexistent id
`"ghost"`, `topologicalSort` succeeds, the batch returns a full Run
Result (the unknown dependency is treated as finishing at time 0), and
no `UnknownDependency` error exists anywhere in the engine. -/
theorem C3_unknown_dependency_ignored :
    topologicalSort [taskGhost] = .ok [taskGhost] ∧
    ∃ res stats,
      runSimulation ⟨"p", "", [taskGhost]⟩ 1 (fun _ => 0) (fun _ _ => 0)
        = .ok (res, stats) ∧ res.length = 1 ∧
        ∀ r ∈ res, r.totalDuration = 1 ∧ lookupD r.taskStartTimes "x" = 0 := by
  have htopo : topologicalSort [taskGhost] = .ok [taskGhost] := by
    simp [topologicalSort, visitMany, taskGhost, List.find?_cons, Except.map]
  refine ⟨htopo, [runOnce [taskGhost] [taskGhost] (fun _ => 0) (fun _ => 0) 0],
    aggregate [taskGhost]
      [runOnce [taskGhost] [taskGhost] (fun _ => 0) (fun _ => 0) 0]
      (fun _ => 0), ?_, by simp, ?_⟩
  · rw [runSimulation]
    dsimp only
    rw [htopo]
    simp [List.range_succ]
  · intro r hr
    rcases List.mem_singleton.mp hr with rfl
    constructor
    · norm_num [runOnce, forwardPass, sampleTriangular, lookupD, maxOfList,
        taskGhost, List.enum, List.lookup]
    · norm_num [runOnce, forwardPass, sampleTriangular, lookupD, maxOfList,
        taskGhost, List.enum, List.lookup]


/-! ### Claim C5: cycle error contents -/

/-- Claim C5, counterexample to the claim as stated: the cycle error
is the fixed string `"Circular dependency detected"`; for the
two-task cycle `t1 <-> t2` it mentions neither task id, so it does not
identify a task on the cycle. -/
theorem C5_counterexample :
    topologicalSort [taskCycA, taskCycB]
        = .error "Circular dependency detected" ∧
    ¬ mentionsId "Circular dependency detected" "t1" ∧
    ¬ mentionsId "Circular dependency detected" "t2" := by
  refine ⟨?_, by simp only [mentionsId]; decide, by simp only [mentionsId]; decide⟩
  simp [topologicalSort, visitMany, taskCycA, taskCycB, List.find?_cons,
    Except.map]

/-- Claim C5, amended: for every task collection (with distinct ids)
containing a dependency cycle, the engine fails deterministically
before any run executes — `runSimulation` returns the error, so no Run
Results are produced — but the error is the fixed message `"Circular
dependency detected"`, which does not identify the task being
revisited (see the counterexample). -/
theorem C5_cycle_error (project : Project) (iterations : ℕ)
    (sqrt : ℚ → ℚ) (rng : ℕ → ℕ → ℚ)
    (hN : (taskIds project.tasks).Nodup)
    (hcyc : ∃ a, Relation.TransGen (depRel project.tasks) a a) :
    runSimulation project iterations sqrt rng
      = .error "Circular dependency detected" := by
  rw [runSimulation, topologicalSort_error_of_cycle _ hN hcyc]

/-- Witness for C5 on the concrete two-task cycle at 7 iterations. -/
theorem C5_witness :
    runSimulation ⟨"p", "", [taskCycA, taskCycB]⟩ 7 (fun _ => 0) (fun _ _ => 0)
      = .error "Circular dependency detected" := by
  refine C5_cycle_error _ 7 _ _ (by decide) ⟨"t1", ?_⟩
  have h12 : depRel [taskCycA, taskCycB] "t1" "t2" :=
    ⟨taskCycA, by simp, rfl, by simp [taskCycA]⟩
  have h21 : depRel [taskCycA, taskCycB] "t2" "t1" :=
    ⟨taskCycB, by simp, rfl, by simp [taskCycB]⟩
  exact Relation.TransGen.tail (Relation.TransGen.single h12) h21


/-! ### Claim C4 -/

/-- Claim C4, counterexample to the claim as stated: at
`optimistic = pessimistic = 2` the division
`(mostLikely - optimistic) / (pessimistic - optimistic)` of
`sampleTriangular` is still evaluated, with a zero denominator — the
code does not short-circuit the degenerate case. -/
theorem C4_counterexample : sampleTriangularDivZero 2 2 2 = true := by
  simp [sampleTriangularDivZero]

/-- Claim C4, amended: for every triple with
`optimistic = pessimistic`, `sampleTriangular` does return that
constant value for every uniform draw `u` (using only `sqrt 0 = 0`),
but not by short-circuiting: the division by the zero denominator
`pessimistic - optimistic` is performed, and the branch chosen via the
resulting non-finite `f` applies the square root to `0`. -/
theorem C4_sampleTriangular_degenerate (sqrt : ℚ → ℚ) (hsqrt : sqrt 0 = 0)
    (c mode u : ℚ) :
    sampleTriangular sqrt c mode c u = c ∧
      sampleTriangularDivZero c mode c = true :=
  ⟨sampleTriangular_const sqrt hsqrt c mode u, by simp [sampleTriangularDivZero]⟩

/-- Witness for C4 at the concrete triple `(2, 3, 2)` with `u = 1/3`. -/
theorem C4_witness :
    sampleTriangular (fun _ => 0) 2 3 2 (1/3) = 2 ∧
      sampleTriangularDivZero 2 3 2 = true :=
  C4_sampleTriangular_degenerate (fun _ => 0) rfl 2 3 (1/3)

/-! ### Claim C9 -/

/-- Claim C9: with the randomness stream (`Math.random`) and
`Math.sqrt` made explicit, the simulation batch is a pure function of
its inputs: two executions with an identical project definition,
iteration count and identical streams produce identical Run Results
and identical Summary Statistics. -/
theorem C9_deterministic (project : Project) (iterations : ℕ)
    (sqrtA sqrtB : ℚ → ℚ) (rngA rngB : ℕ → ℕ → ℚ)
    (hs : ∀ x, sqrtA x = sqrtB x) (hr : ∀ i j, rngA i j = rngB i j) :
    runSimulation project iterations sqrtA rngA
      = runSimulation project iterations sqrtB rngB := by
  have h1 : sqrtA = sqrtB := funext hs
  have h2 : rngA = rngB := funext fun i => funext (hr i)
  rw [h1, h2]

/-- Witness for C9: two syntactically distinct but pointwise equal
streams give identical batches on a concrete one-task project. -/
theorem C9_witness :
    runSimulation projSolo 2 (fun x => x) (fun _ _ => 1/2)
      = runSimulation projSolo 2 (fun x => x + 0)
          (fun i _ => ((i - i : ℤ) : ℚ) + 1/2) :=
  C9_deterministic _ 2 _ _ _ _ (fun x => by ring)
    (fun i j => by push_cast; ring)

/-! ### Claim C10 -/

/-- Claim C10: the aggregation arithmetic is unguarded but safe
exactly when at least one run exists.  For every `n ≥ 1` and each of
the percentile fractions used (`0.5`, `0.9`, `0.95`, `0.99`) the index
`floor(n·p)` is strictly in bounds and the divisor `n` is nonzero;
for an iteration count of `0` the batch succeeds with an empty result
vector, so the sorted duration vector is empty (every element lookup
is out of bounds) and the mean's divisor — the vector's length — is
zero.  No `n ≥ 1` check appears anywhere in the engine. -/
theorem C10_unguarded_aggregation :
    (∀ n : ℕ, 1 ≤ n →
      (percIdx n (1/2) < n ∧ percIdx n (9/10) < n ∧
        percIdx n (95/100) < n ∧ percIdx n (99/100) < n) ∧ ((n : ℚ) ≠ 0)) ∧
    (∀ (project : Project) (sqrt : ℚ → ℚ) (rng : ℕ → ℕ → ℚ)
        (res : List SimResult) (stats : SimStats),
      runSimulation project 0 sqrt rng = .ok (res, stats) →
        res = [] ∧ (sortQ (res.map SimResult.totalDuration)).length = 0 ∧
          (((sortQ (res.map SimResult.totalDuration)).length : ℚ) = 0)) := by
  constructor
  · intro n hn
    refine ⟨⟨percIdx_lt n hn _ (by norm_num) (by norm_num),
      percIdx_lt n hn _ (by norm_num) (by norm_num),
      percIdx_lt n hn _ (by norm_num) (by norm_num),
      percIdx_lt n hn _ (by norm_num) (by norm_num)⟩, ?_⟩
    exact_mod_cast Nat.one_le_iff_ne_zero.mp hn
  · intro project sqrt rng res stats h
    unfold runSimulation at h
    rcases htopo : topologicalSort project.tasks with e | sorted <;>
      rw [htopo] at h
    · cases h
    · simp only [List.range_zero, List.map_nil, Except.ok.injEq, Prod.mk.injEq] at h
      have hres : res = [] := h.1.symm
      subst hres
      exact ⟨rfl, rfl, rfl⟩

/-! ### Claim C6: forward-pass scheduler -/

/-- Association lookup skips an entry with a different key. -/
theorem lookup_cons_ne {β : Type} (l : List (String × β)) (a k : String)
    (b : β) (h : k ≠ a) : ((a, b) :: l).lookup k = l.lookup k := by
  rw [List.lookup_cons]
  have hb : (k == a) = false := by
    simp [h]
  rw [hb]

/-- Untouched keys: the forward pass leaves lookups of ids outside the
processed order unchanged. -/
theorem forwardPass_frame (durs : List (String × ℚ)) :
    ∀ (order : List Task) (sm fm : List (String × ℚ)) (tot : ℚ) (k : String),
    k ∉ taskIds order →
    (forwardPass durs order sm fm tot).1.lookup k = sm.lookup k ∧
    (forwardPass durs order sm fm tot).2.1.lookup k = fm.lookup k := by
  intro order
  induction order with
  | nil => intro sm fm tot k _; exact ⟨rfl, rfl⟩
  | cons t rest ih =>
    intro sm fm tot k hk
    have hne : k ≠ t.id := by
      intro hc
      exact hk (by simp [taskIds, hc])
    have hk' : k ∉ taskIds rest := by
      intro hc
      exact hk (by simp [taskIds] at hc ⊢; exact Or.inr hc)
    rw [forwardPass]
    obtain ⟨h1, h2⟩ := ih ((t.id, _) :: sm) ((t.id, _) :: fm) _ k hk'
    exact ⟨by rw [h1, lookup_cons_ne _ _ _ _ hne],
      by rw [h2, lookup_cons_ne _ _ _ _ hne]⟩

/-- Someness of finish-map lookups is preserved by the forward pass. -/
theorem forwardPass_fin_isSome (durs : List (String × ℚ)) :
    ∀ (order : List Task) (sm fm : List (String × ℚ)) (tot : ℚ) (k : String),
    (fm.lookup k).isSome = true →
    ((forwardPass durs order sm fm tot).2.1.lookup k).isSome = true := by
  intro order
  induction order with
  | nil => intro sm fm tot k h; exact h
  | cons t rest ih =>
    intro sm fm tot k h
    rw [forwardPass]
    apply ih
    by_cases hk : k = t.id
    · subst hk; simp
    · rw [lookup_cons_ne _ _ _ _ hk]; exact h

/-- Full specification of the forward pass on an order whose
dependencies all point to earlier positions or to preexisting
finish-map entries: each task's recorded start obeys the
no-dependencies/max-of-dependency-finishes rule, its recorded finish
is start plus sampled duration, all its dependencies have recorded
finishes, and the running total is the maximum of the initial value
and the recorded finishes. -/
theorem forwardPass_spec (durs : List (String × ℚ)) :
    ∀ (order : List Task) (sm fm : List (String × ℚ)) (tot : ℚ),
    (taskIds order).Nodup →
    (∀ t ∈ order, fm.lookup t.id = none) →
    (∀ i (hi : i < order.length), ∀ d ∈ order[i].dependencies,
      (∃ j, ∃ hj : j < order.length, j < i ∧ order[j].id = d) ∨
        (fm.lookup d).isSome = true) →
    (∀ t ∈ order,
      (forwardPass durs order sm fm tot).1.lookup t.id
          = some (if t.dependencies.isEmpty then 0
              else maxOfList 0 (t.dependencies.map
                (lookupD (forwardPass durs order sm fm tot).2.1))) ∧
      (forwardPass durs order sm fm tot).2.1.lookup t.id
          = some (lookupD (forwardPass durs order sm fm tot).1 t.id
              + lookupD durs t.id) ∧
      (∀ d ∈ t.dependencies,
        ((forwardPass durs order sm fm tot).2.1.lookup d).isSome = true) ∧
      lookupD (forwardPass durs order sm fm tot).2.1 t.id
          ≤ (forwardPass durs order sm fm tot).2.2) ∧
    tot ≤ (forwardPass durs order sm fm tot).2.2 ∧
    ((forwardPass durs order sm fm tot).2.2 = tot ∨
      ∃ t ∈ order, (forwardPass durs order sm fm tot).2.2
        = lookupD (forwardPass durs order sm fm tot).2.1 t.id) := by
  intro order
  induction order with
  | nil =>
    intro sm fm tot _ _ _
    refine ⟨?_, le_refl _, Or.inl rfl⟩
    intro t ht
    cases ht
  | cons t rest ih =>
    intro sm fm tot hN hfresh hdb
    have hNr : (taskIds rest).Nodup := by
      simpa [taskIds] using hN.of_cons
    have htid : t.id ∉ taskIds rest := by
      have := hN
      simp only [taskIds, List.map_cons, List.nodup_cons] at this
      exact this.1
    -- the values computed for the head
    set st := (if t.dependencies.isEmpty then (0:ℚ)
      else maxOfList 0 (t.dependencies.map (lookupD fm))) with hst
    set fin := st + lookupD durs t.id with hfin
    set tot' := (if tot < fin then fin else tot) with htot'
    have hunfold : forwardPass durs (t :: rest) sm fm tot
        = forwardPass durs rest ((t.id, st) :: sm) ((t.id, fin) :: fm) tot' := by
      rw [forwardPass]
    -- head dependencies are resident in fm and differ from all order ids
    have hdephead : ∀ d ∈ t.dependencies, (fm.lookup d).isSome = true := by
      intro d hd
      rcases hdb 0 (by simp) d (by simpa using hd) with ⟨j, hj, hjlt, _⟩ | hsome
      · omega
      · exact hsome
    have hdepne : ∀ d ∈ t.dependencies, d ≠ t.id ∧ d ∉ taskIds rest := by
      intro d hd
      have hsome := hdephead d hd
      constructor
      · intro hc
        rw [hc, hfresh t (by simp)] at hsome
        cases hsome
      · intro hc
        rcases List.mem_map.mp hc with ⟨t', ht', htid'⟩
        rw [← htid', hfresh t' (by simp [ht'])] at hsome
        cases hsome
    -- fresh and deps hypotheses for the tail
    have hfresh' : ∀ t' ∈ rest, ((t.id, fin) :: fm).lookup t'.id = none := by
      intro t' ht'
      have hne : t'.id ≠ t.id := by
        intro hc
        exact htid (hc ▸ List.mem_map_of_mem Task.id ht')
      rw [lookup_cons_ne _ _ _ _ hne]
      exact hfresh t' (by simp [ht'])
    have hdb' : ∀ i (hi : i < rest.length), ∀ d ∈ rest[i].dependencies,
        (∃ j, ∃ hj : j < rest.length, j < i ∧ rest[j].id = d) ∨
          (((t.id, fin) :: fm).lookup d).isSome = true := by
      intro i hi d hd
      have hi' : i + 1 < (t :: rest).length := by simpa using hi
      have hd' : d ∈ (t :: rest)[i + 1].dependencies := by simpa using hd
      rcases hdb (i + 1) hi' d hd' with ⟨j, hj, hjlt, hjid⟩ | hsome
      · rcases Nat.eq_zero_or_pos j with rfl | hpos
        · right
          have : t.id = d := by simpa using hjid
          rw [← this]
          simp
        · left
          obtain ⟨j', rfl⟩ : ∃ j', j = j' + 1 := ⟨j - 1, by omega⟩
          have hjr : j' < rest.length := by
            simp only [List.length_cons] at hj
            omega
          refine ⟨j', hjr, by omega, ?_⟩
          have hgc : (t :: rest)[j' + 1] = rest[j'] := by simp
          rw [← hjid]
          exact congrArg Task.id hgc.symm
      · right
        by_cases hc : d = t.id
        · subst hc; simp
        · rw [lookup_cons_ne _ _ _ _ hc]
          exact hsome
    obtain ⟨ihmem, ihtot, ihach⟩ :=
      ih ((t.id, st) :: sm) ((t.id, fin) :: fm) tot' hNr hfresh' hdb'
    rw [hunfold]
    set FP := forwardPass durs rest ((t.id, st) :: sm) ((t.id, fin) :: fm) tot'
      with hFP
    -- final lookups of the head id
    obtain ⟨hfr1, hfr2⟩ :=
      forwardPass_frame durs rest ((t.id, st) :: sm) ((t.id, fin) :: fm)
        tot' t.id htid
    have hsmt : FP.1.lookup t.id = some st := by rw [← hFP] at hfr1; simp [hfr1]
    have hfmt : FP.2.1.lookup t.id = some fin := by rw [← hFP] at hfr2; simp [hfr2]
    -- dependency lookups of the head survive to the final map
    have hdepfinal : ∀ d ∈ t.dependencies, FP.2.1.lookup d = fm.lookup d := by
      intro d hd
      obtain ⟨hdne, hdnr⟩ := hdepne d hd
      obtain ⟨_, hf2⟩ :=
        forwardPass_frame durs rest ((t.id, st) :: sm) ((t.id, fin) :: fm)
          tot' d hdnr
      rw [← hFP] at hf2
      rw [hf2, lookup_cons_ne _ _ _ _ hdne]
    have htot'le : tot' ≤ FP.2.2 := ihtot
    refine ⟨?_, ?_, ?_⟩
    · intro u hu
      rcases List.mem_cons.mp hu with rfl | hu'
      · refine ⟨?_, ?_, ?_, ?_⟩
        · rw [hsmt, hst]
          by_cases hdeps : u.dependencies.isEmpty = true
          · rw [if_pos hdeps, if_pos hdeps]
          · rw [if_neg hdeps, if_neg hdeps]
            have hmap : List.map (lookupD fm) u.dependencies
                = List.map (lookupD FP.2.1) u.dependencies :=
              List.map_congr_left fun d hd => by
                rw [lookupD, lookupD, hdepfinal d hd]
            rw [hmap]
        · have hsval : lookupD FP.1 u.id = st := by
            rw [lookupD, hsmt]
            rfl
          rw [hfmt, hfin, hsval]
        · intro d hd
          rw [hdepfinal d hd]
          exact hdephead d hd
        · rw [lookupD, hfmt]
          have hfint : fin ≤ tot' := by
            rw [htot']
            split
            · exact le_refl _
            · exact le_of_not_lt (by assumption)
          exact le_trans hfint htot'le
      · exact ihmem u hu'
    · calc tot ≤ tot' := by
            rw [htot']
            split
            · exact le_of_lt (by assumption)
            · exact le_refl _
        _ ≤ FP.2.2 := htot'le
    · rcases ihach with hl | ⟨u, hu, hval⟩
      · rw [htot'] at hl
        split at hl
        · right
          refine ⟨t, by simp, ?_⟩
          rw [hl, lookupD, hfmt]
          rfl
        · exact Or.inl hl
      · exact Or.inr ⟨u, by simp [hu], hval⟩

/-- Claim C6: over a validated order (distinct ids, dependencies
before dependents) the forward pass gives every dependency-free task
start time 0, every other task the maximum recorded finish time of its
direct dependencies (all of which are recorded), finish = start +
sampled duration, and a total that bounds every finish and is either
the initial 0 or some task's finish.  In particular, for the two-task
chain a -> b with constant durations dA, dB (nonnegative), every run
of the full engine yields duration(a) = dA, duration(b) = dB,
start(a) = 0, start(b) = dA (so finish(a) = dA, finish(b) = dA + dB)
and total duration dA + dB. -/
theorem C6_forward_pass :
    (∀ (durs : List (String × ℚ)) (order : List Task),
      (taskIds order).Nodup → DepsBefore order →
      (∀ t ∈ order,
        (forwardPass durs order [] [] 0).1.lookup t.id
            = some (if t.dependencies.isEmpty then 0
                else maxOfList 0 (t.dependencies.map
                  (lookupD (forwardPass durs order [] [] 0).2.1))) ∧
        (forwardPass durs order [] [] 0).2.1.lookup t.id
            = some (lookupD (forwardPass durs order [] [] 0).1 t.id
                + lookupD durs t.id) ∧
        (∀ d ∈ t.dependencies,
          ((forwardPass durs order [] [] 0).2.1.lookup d).isSome = true) ∧
        lookupD (forwardPass durs order [] [] 0).2.1 t.id
            ≤ (forwardPass durs order [] [] 0).2.2) ∧
      ((forwardPass durs order [] [] 0).2.2 = 0 ∨
        ∃ t ∈ order, (forwardPass durs order [] [] 0).2.2
          = lookupD (forwardPass durs order [] [] 0).2.1 t.id)) ∧
    (∀ (dA dB : ℚ), 0 ≤ dA → 0 ≤ dB →
      ∀ (sqrt : ℚ → ℚ), sqrt 0 = 0 →
      ∀ (rng : ℕ → ℕ → ℚ) (iterations : ℕ),
      ∃ res stats,
        runSimulation (chainProj dA dB) iterations sqrt rng
          = .ok (res, stats) ∧
        ∀ r ∈ res,
          lookupD r.taskDurations "a" = dA ∧
          lookupD r.taskDurations "b" = dB ∧
          lookupD r.taskStartTimes "a" = 0 ∧
          lookupD r.taskStartTimes "b" = dA ∧
          r.totalDuration = dA + dB) := by
  constructor
  · intro durs order hN hdb
    obtain ⟨hmem, _, hach⟩ := forwardPass_spec durs order [] [] 0 hN
      (fun t _ => rfl)
      (fun i hi d hd => Or.inl (hdb i hi d hd))
    exact ⟨hmem, hach⟩
  · intro dA dB hA hB sqrt hs rng iterations
    have htopo : topologicalSort (chainProj dA dB).tasks
        = .ok [constTask "a" [] dA, constTask "b" ["a"] dB] := by
      simp [topologicalSort, visitMany, chainProj, constTask,
        List.find?_cons, Except.map]
    refine ⟨(List.range iterations).map
        (fun i => runOnce (chainProj dA dB).tasks
          [constTask "a" [] dA, constTask "b" ["a"] dB] sqrt (rng i) i),
      aggregate (chainProj dA dB).tasks
        ((List.range iterations).map
          (fun i => runOnce (chainProj dA dB).tasks
            [constTask "a" [] dA, constTask "b" ["a"] dB] sqrt (rng i) i))
        sqrt, ?_, ?_⟩
    · rw [runSimulation]
      dsimp only
      rw [htopo]
    · intro r hr
      rcases List.mem_map.mp hr with ⟨i, _, hrval⟩
      subst hrval
      have hda : sampleTriangular sqrt dA dA dA (rng i 0) = dA :=
        sampleTriangular_const sqrt hs dA dA _
      have hdb2 : sampleTriangular sqrt dB dB dB (rng i 1) = dB :=
        sampleTriangular_const sqrt hs dB dB _
      refine ⟨?_, ?_, ?_, ?_, ?_⟩ <;>
        · simp [runOnce, chainProj, constTask, List.enum, forwardPass,
            lookupD, maxOfList, hda, hdb2, List.lookup]
          try split_ifs <;> intros <;> linarith

/-- Witness for C6: the chain a -> b with durations 2 and 3 through
the full engine, and a dependency-residency fact from the general
forward-pass specification on a concrete order. -/
theorem C6_witness :
    (((forwardPass [("a", 1), ("b", 1)]
        [constTask "a" [] 1, constTask "b" ["a"] 1] [] [] 0).2.1.lookup
          "a").isSome = true) ∧
    (∃ res stats,
      runSimulation (chainProj 2 3) 1 (fun _ => 0) (fun _ _ => 0)
        = .ok (res, stats) ∧
      ∀ r ∈ res,
        lookupD r.taskDurations "a" = 2 ∧ lookupD r.taskDurations "b" = 3 ∧
        lookupD r.taskStartTimes "a" = 0 ∧ lookupD r.taskStartTimes "b" = 2 ∧
        r.totalDuration = 5) := by
  constructor
  · have hdb : DepsBefore [constTask "a" [] 1, constTask "b" ["a"] 1] := by
      intro i hi d hd
      simp only [List.length_cons, List.length_nil] at hi
      match i, hi with
      | 0, _ =>
        simp [constTask] at hd
      | 1, _ =>
        have hd2 : d = "a" := by simpa [constTask] using hd
        subst hd2
        exact ⟨0, by simp, by omega, by simp [constTask]⟩
    have h1 := (C6_forward_pass.1 [("a", 1), ("b", 1)]
      [constTask "a" [] 1, constTask "b" ["a"] 1] (by decide) hdb).1
      (constTask "b" ["a"] 1) (by simp)
    exact h1.2.2.1 "a" (by simp [constTask])
  · obtain ⟨res, stats, h1, h2⟩ := C6_forward_pass.2 2 3 (by norm_num)
      (by norm_num) (fun _ => 0) rfl (fun _ _ => 0) 1
    refine ⟨res, stats, h1, ?_⟩
    intro r hr
    obtain ⟨a1, a2, a3, a4, a5⟩ := h2 r hr
    refine ⟨a1, a2, a3, a4, ?_⟩
    rw [a5]
    norm_num


/-! ### Claim C7 is stated below -/

/-- Claim C7: for every non-empty run collection, the aggregator's
median is the sorted duration vector's element at index `floor(n/2)`
(`n` the number of runs); the named percentiles are computed by the
single `getPercentile` formula, the sorted element at `floor(n·p)`;
`percentile(0.5)` equals the separately computed median; and
`percentile` is monotonically non-decreasing in `p` on `[0, 1)`. -/
theorem C7_percentile_median (tasks : List Task) (results : List SimResult)
    (sqrt : ℚ → ℚ) (hne : results ≠ []) :
    (aggregate tasks results sqrt).median
        = (sortQ (results.map SimResult.totalDuration)).getD
            (results.length / 2) 0 ∧
    ((aggregate tasks results sqrt).p90
        = (sortQ (results.map SimResult.totalDuration)).getD
            (percIdx results.length (9/10)) 0 ∧
      (aggregate tasks results sqrt).p95
        = (sortQ (results.map SimResult.totalDuration)).getD
            (percIdx results.length (95/100)) 0 ∧
      (aggregate tasks results sqrt).p99
        = (sortQ (results.map SimResult.totalDuration)).getD
            (percIdx results.length (99/100)) 0) ∧
    percentileOf (sortQ (results.map SimResult.totalDuration)) (1/2)
        = (aggregate tasks results sqrt).median ∧
    (∀ p q : ℚ, 0 ≤ p → p ≤ q → q < 1 →
      percentileOf (sortQ (results.map SimResult.totalDuration)) p
        ≤ percentileOf (sortQ (results.map SimResult.totalDuration)) q) := by
  have hlen : (sortQ (results.map SimResult.totalDuration)).length
      = results.length := by
    rw [sortQ_length, List.length_map]
  have hmed : (aggregate tasks results sqrt).median
      = (sortQ (results.map SimResult.totalDuration)).getD
          (results.length / 2) 0 := by
    simp only [aggregate, hlen]
  refine ⟨hmed, ⟨?_, ?_, ?_⟩, ?_, ?_⟩
  · simp only [aggregate, percentileOf, hlen]
  · simp only [aggregate, percentileOf, hlen]
  · simp only [aggregate, percentileOf, hlen]
  · rw [percentileOf, hlen, percIdx_half, hmed]
  · intro p q hp hpq hq
    have hn : 1 ≤ results.length := List.length_pos.mpr hne
    apply sorted_getD_mono (sortQ_sorted _) (percIdx_mono _ hpq)
    rw [hlen]
    exact percIdx_lt results.length hn q (le_trans hp hpq) hq

/-- Claim C8: for every project and non-empty batch, the per-resource
statistics cover exactly the distinct non-empty `resourceType` labels
present in the task collection; a run that recorded no peak for a type
contributes `0` (the lookup default), and a type with no observed peak
in any run gets `meanPeak = p90Peak = maxPeak = 0`. -/
theorem C8_resource_stats (project : Project) (iterations : ℕ)
    (sqrt : ℚ → ℚ) (rng : ℕ → ℕ → ℚ) (res : List SimResult)
    (stats : SimStats) (hn : 1 ≤ iterations)
    (hrun : runSimulation project iterations sqrt rng = .ok (res, stats)) :
    (∀ s, (∃ st, (s, st) ∈ stats.resourceStats) ↔
      (s ≠ "" ∧ ∃ t ∈ project.tasks, t.resourceType = s)) ∧
    (∀ (r : SimResult) (s : String), r.peakResources.lookup s = none →
      lookupD r.peakResources s = 0) ∧
    (∀ s st, (s, st) ∈ stats.resourceStats →
      (∀ r ∈ res, r.peakResources.lookup s = none) →
      st.meanPeak = 0 ∧ st.p90Peak = 0 ∧ st.maxPeak = 0) := by
  have hstats : stats = aggregate project.tasks res sqrt := by
    unfold runSimulation at hrun
    rcases htopo : topologicalSort project.tasks with e | sorted <;>
      rw [htopo] at hrun
    · cases hrun
    · simp only [Except.ok.injEq, Prod.mk.injEq] at hrun
      rw [← hrun.2, hrun.1]
  have hres : stats.resourceStats
      = (resourceLabels project.tasks).map
          (fun ty => (ty, rstatOf res ty)) := by
    rw [hstats]; rfl
  refine ⟨?_, ?_, ?_⟩
  · intro s
    rw [hres]
    constructor
    · rintro ⟨st, hmem⟩
      rcases List.mem_map.mp hmem with ⟨ty, hty, heq⟩
      have hts : ty = s := (Prod.ext_iff.mp heq).1
      subst hts
      exact (mem_resourceLabels _ _).mp hty
    · intro hlab
      exact ⟨rstatOf res s,
        List.mem_map.mpr ⟨s, (mem_resourceLabels _ _).mpr hlab, rfl⟩⟩
  · intro r s hnone
    rw [lookupD, hnone]
    rfl
  · intro s st hmem hzero
    rw [hres] at hmem
    rcases List.mem_map.mp hmem with ⟨ty, _, heq⟩
    injection heq with hty hst
    subst hty
    subst hst
    rw [rstatOf_all_zero _ _ hzero]
    exact ⟨rfl, rfl, rfl⟩

/-- Witness for C8: the project around `taskRZ` (label `"dev"`, zero
count) yields a `"dev"` entry with all-zero statistics after one run. -/
theorem C8_witness :
    ∃ res stats,
      runSimulation projRZ 1 (fun _ => 0) (fun _ _ => 0) = .ok (res, stats) ∧
      ∃ st, ("dev", st) ∈ stats.resourceStats ∧
        st.meanPeak = 0 ∧ st.p90Peak = 0 ∧ st.maxPeak = 0 := by
  rcases hrun : runSimulation projRZ 1 (fun _ => 0) (fun _ _ => 0) with e | p
  · exfalso
    have : topologicalSort projRZ.tasks
        = .ok [taskRZ] := by
      simp [topologicalSort, visitMany, projRZ, taskRZ, List.find?_cons,
        Except.map]
    rw [runSimulation, this] at hrun
    cases hrun
  · obtain ⟨res, stats⟩ := p
    have h := C8_resource_stats projRZ 1 (fun _ => 0) (fun _ _ => 0)
      res stats (le_refl 1) hrun
    have hdev : ∃ st, ("dev", st) ∈ stats.resourceStats :=
      (h.1 "dev").mpr ⟨by simp, taskRZ, by simp [projRZ], rfl⟩
    obtain ⟨st, hst⟩ := hdev
    refine ⟨res, stats, rfl, st, hst, h.2.2 "dev" st hst ?_⟩
    intro r hr
    have hresval : res = [runOnce projRZ.tasks [taskRZ] (fun _ => 0)
        (fun _ => 0) 0] := by
      have htopo : topologicalSort projRZ.tasks = .ok [taskRZ] := by
        simp [topologicalSort, visitMany, projRZ, taskRZ, List.find?_cons,
        Except.map]
      rw [runSimulation, htopo] at hrun
      simp only [List.range_succ, List.range_zero, List.nil_append,
        List.map_cons, List.map_nil, Except.ok.injEq, Prod.mk.injEq] at hrun
      exact hrun.1.symm
    rw [hresval] at hr
    rcases List.mem_singleton.mp hr with rfl
    have : (runOnce projRZ.tasks [taskRZ] (fun _ => 0)
        (fun _ => 0) 0).peakResources = [] := by
      simp [runOnce, eventsOf, sortEvents, sweepPeaks, projRZ, taskRZ]
    rw [this]
    rfl

/-- Witness for C7 on a concrete two-run collection. -/
theorem C7_witness :
    percentileOf (sortQ ([resFixA, resFixB].map SimResult.totalDuration)) (1/2)
        = (aggregate [] [resFixA, resFixB] (fun _ => 0)).median ∧
    percentileOf (sortQ ([resFixA, resFixB].map SimResult.totalDuration)) (1/4)
        ≤ percentileOf (sortQ ([resFixA, resFixB].map SimResult.totalDuration))
            (3/4) := by
  have h := C7_percentile_median [] [resFixA, resFixB] (fun _ => 0) (by simp)
  exact ⟨h.2.2.1, h.2.2.2 (1/4) (3/4) (by norm_num) (by norm_num) (by norm_num)⟩

/-- Witness for C10: concrete in-bounds indices for a batch of `5`
runs, and the empty batch of a concrete zero-iteration invocation. -/
theorem C10_witness :
    (percIdx 5 (1/2) < 5 ∧ percIdx 5 (9/10) < 5 ∧
      percIdx 5 (95/100) < 5 ∧ percIdx 5 (99/100) < 5) ∧
    ∀ res stats,
      runSimulation projSolo 0 (fun _ => 0) (fun _ _ => 0)
        = .ok (res, stats) → res = [] := by
  refine ⟨(C10_unguarded_aggregation.1 5 (by norm_num)).1, ?_⟩
  intro res stats h
  exact (C10_unguarded_aggregation.2 _ _ _ res stats h).1

end MC
